import Mathlib

/-!
Verification of the opencode-named-memory plugin (src/index.ts) against its
design spec.  The plugin core is shallowly embedded: JS strings are `List Char`
(UTF-16 code units are modelled as characters, which is faithful for every
length/slice fact proved here), JS numbers are `ℚ` with the transcendental
`Math.exp` kept as an explicit function parameter, and the external fastmemory
store, the host runtime and `Date` are modelled by explicit parameters
(handles and predicates are abstract identifiers, search results are explicit
lists).  Fallible external calls are `Except` values threaded into the
embedded control flow exactly where the source awaits them.
-/

/-- The apostrophe character (U+0027). -/
def squote : Char := Char.ofNat 39

/-- A JS message/content value as the plugin observes it: either a string or a
non-string value carried together with its `JSON.stringify` image (the only
way the plugin ever looks at a non-string content). -/
inductive JsContent where
  | jstr (s : List Char)
  | jother (json : List Char)
deriving DecidableEq, Repr

/-- `typeof c === "string" ? c : JSON.stringify(c)` (src/index.ts lines 82, 101). -/
def stringifyContent : JsContent → List Char
  | JsContent.jstr s => s
  | JsContent.jother j => j

/-- JS truthiness of a content value: a string is truthy iff nonempty, any
non-string object value is truthy. -/
def contentTruthy : JsContent → Bool
  | JsContent.jstr s => !s.isEmpty
  | JsContent.jother _ => true

/-- A host message as seen by the plugin: a role and an optional content. -/
structure Msg where
  role : List Char
  content : Option JsContent
deriving DecidableEq, Repr

/-! ### Name Sanitizer (src/index.ts lines 39-46) -/

/-- Characters kept verbatim by the sanitizer's regex `[^a-z0-9]`. -/
def isLowerAlnum (c : Char) : Bool :=
  (decide ('a' ≤ c) && decide (c ≤ 'z')) || (decide ('0' ≤ c) && decide (c ≤ '9'))

/-- Replace every maximal run of characters satisfying `p` by the single
character `r`; the `Bool` flag records whether we are inside such a run.
This is JS `replace(/p+/g, r)` for a character class `p`. -/
def collapseRunsAux (p : Char → Bool) (r : Char) : Bool → List Char → List Char
  | _, [] => []
  | inRun, c :: cs =>
    if p c then
      if inRun then collapseRunsAux p r true cs
      else r :: collapseRunsAux p r true cs
    else c :: collapseRunsAux p r false cs

/-- JS `replace(/p+/g, r)` for a single-character class `p`. -/
def collapseRuns (p : Char → Bool) (r : Char) (l : List Char) : List Char :=
  collapseRunsAux p r false l

/-- JS `String.prototype.trim` (whitespace stripped from both ends). -/
def jsTrim (l : List Char) : List Char :=
  ((l.dropWhile Char.isWhitespace).reverse.dropWhile Char.isWhitespace).reverse

/-- JS `replace(/^-|-$/g, "")`: strip leading and trailing hyphens. -/
def stripHyphens (l : List Char) : List Char :=
  ((l.dropWhile (fun c => c == '-')).reverse.dropWhile (fun c => c == '-')).reverse

/-- `sanitizeName` (src/index.ts lines 39-46): lowercase, trim, collapse runs
of non-alphanumerics to a hyphen, collapse hyphen runs, strip end hyphens,
fall back to "default" when empty. -/
def sanitizeName (raw : List Char) : List Char :=
  let s := stripHyphens (collapseRuns (fun c => c == '-') '-'
    (collapseRuns (fun c => !isLowerAlnum c) '-' (jsTrim (raw.map Char.toLower))))
  if s.isEmpty then ("default".toList) else s

/-! ### Ingest Gate (src/index.ts lines 79-93) -/

/-- Content normalization of the ingest path (src/index.ts line 83):
`raw.length > 600 ? raw.slice(0, 550) + "..." : raw`. -/
def normalizeContent (raw : List Char) : List Char :=
  if raw.length > 600 then raw.take 550 ++ "...".toList else raw

/-- `ingestUserMessage` (src/index.ts lines 79-93), modelled as the add call
it issues: `some insight` when `activeMemory.add(insight, …)` is called,
`none` when the guard fails or the predicate rejects.  `mem` and `pred` are
the `activeMemory` handle and the `activeShouldCreate` predicate. -/
def ingestUserMessage (mem : Option Nat) (pred : Option (List Char → Bool))
    (msg : Msg) : Option (List Char) :=
  match mem, pred, msg.content with
  | some _, some p, some c =>
    if contentTruthy c && (msg.role == "user".toList) then
      let insight := normalizeContent (stringifyContent c)
      if p insight then some insight else none
    else none
  | _, _, _ => none

/-! ### Search tool (src/index.ts lines 148-168) -/

/-- The call the search tool issues to the external store. -/
structure SearchCall where
  query : List Char
  limit : ℚ
deriving DecidableEq, Repr

/-- The `searchHybrid` invocation of `named_memory_search` (src/index.ts
line 157): the schema default 6 applies when `limit` is absent, then
`args.limit || 6` re-defaults any falsy (zero) value; the query is passed
through unchanged. -/
def namedMemorySearchCall (query : List Char) (limit : Option ℚ) : SearchCall :=
  let v := limit.getD 6
  { query := query, limit := if v = 0 then 6 else v }

/-- The query escaper as the spec describes it (double every single quote,
wrap the whole result in double quotes); the source has no such function, so
this definition follows the spec text for comparison. -/
def specEscapeQuery (s : List Char) : List Char :=
  '"' :: ((s.map (fun c => if c = squote then [squote, squote] else [c])).flatten ++ ['"'])

/-! ### Tool surface (src/index.ts lines 145-199) -/

/-- The keys of the `tool:` record returned by the plugin. -/
def toolNames : List (List Char) :=
  ["named_memory_use".toList, "named_memory_search".toList,
   "named_memory_add".toList, "named_memory_stats".toList]

/-! ### Recall Ranker (src/index.ts lines 96-132) -/

/-- A memory record as returned by the external store's hybrid search:
content, `createdAt` as milliseconds since the epoch, and an optional
relevance score (`m.score` may be absent). -/
structure MemoryEntry where
  content : List Char
  createdAt : ℚ
  score : Option ℚ
deriving DecidableEq, Repr

/-- A search hit together with its decay-adjusted `finalScore`
(src/index.ts lines 107-111). -/
structure Ranked where
  entry : MemoryEntry
  finalScore : ℚ
deriving DecidableEq, Repr

/-- The limit the inject pipeline passes to the external hybrid search
(src/index.ts line 103): an over-fetch of 10 beyond the injection cap. -/
def injectSearchLimit (maxMemories : ℕ) : ℕ := maxMemories + 10

/-- The decay re-weighting of one candidate (src/index.ts lines 107-111):
`ageHours = (now - createdAt) / 3600000`,
`boost = max(0.55, exp(-ageHours / 72))`, `finalScore = (score || 0) * boost`.
`expQ` is the model of `Math.exp`. -/
def decayScore (expQ : ℚ → ℚ) (now : ℚ) (m : MemoryEntry) : Ranked :=
  let ageHours := (now - m.createdAt) / 3600000
  let boost := max (11/20 : ℚ) (expQ (-ageHours / 72))
  { entry := m, finalScore := m.score.getD 0 * boost }

/-- The descending comparator of src/index.ts line 112
(`(a, b) => b.finalScore - a.finalScore`): `a` may precede `b` iff the
comparator is ≤ 0 there, i.e. `b.finalScore ≤ a.finalScore`. -/
def byFinalScoreDesc (a b : Ranked) : Bool :=
  decide (b.finalScore ≤ a.finalScore)

/-- The re-rank pipeline of src/index.ts lines 106-113: map the decay
re-weighting over the candidates, sort stably by descending `finalScore`
(JS `Array.prototype.sort` is stable per ES2019, modelled by `mergeSort`),
and keep the first `maxMemories` entries. -/
def rerank (expQ : ℚ → ℚ) (now : ℚ) (maxMemories : ℕ)
    (ms : List MemoryEntry) : List Ranked :=
  ((ms.map (decayScore expQ now)).mergeSort byFinalScoreDesc).take maxMemories

/-- One rendered entry of the injected block (src/index.ts lines 117-121);
`isoDate` models `t => new Date(t).toISOString().split("T")[0]`. -/
def renderEntry (isoDate : ℚ → List Char) (i : ℕ) (m : Ranked) : List Char :=
  "Memory #".toList ++ (toString (i + 1)).toList ++ " (".toList ++
    isoDate m.entry.createdAt ++ "):\n".toList ++ m.entry.content

/-- The full injected block (src/index.ts lines 117-128). -/
def renderBlock (isoDate : ℚ → List Char) (name : List Char)
    (ms : List Ranked) : List Char :=
  "<opencode-named-memory name=".toList ++ ['"'] ++ name ++ ['"'] ++ ">\n".toList ++
    "These are your permanent memories for ".toList ++ [squote] ++ name ++ [squote] ++
    ". Respect them in every decision:\n\n".toList ++
    (List.intercalate ("\n\n".toList) (ms.enum.map (fun p => renderEntry isoDate p.1 p.2))) ++
    "\n</opencode-named-memory>".toList

/-- Task-hint derivation of src/index.ts line 100: the content of the last
message, when the message list is nonempty and that message has a content
field. -/
def lastContent (messages : List Msg) : Option JsContent :=
  messages.getLast?.bind Msg.content

/-- The task hint of src/index.ts line 100:
`input?.prompt || input?.messages?.[len - 1]?.content || "current coding task"`,
a JS falsy-chain (an empty-string prompt or last content falls through). -/
def taskHint (prompt : Option (List Char)) (messages : List Msg) : JsContent :=
  match prompt with
  | some p =>
    if p.isEmpty then
      match lastContent messages with
      | some c => if contentTruthy c then c else JsContent.jstr ("current coding task".toList)
      | none => JsContent.jstr ("current coding task".toList)
    else JsContent.jstr p
  | none =>
    match lastContent messages with
    | some c => if contentTruthy c then c else JsContent.jstr ("current coding task".toList)
    | none => JsContent.jstr ("current coding task".toList)

/-- The query handed to `searchHybrid` by the inject pipeline
(src/index.ts lines 100-103): the serialized task hint, unmodified. -/
def injectQuery (prompt : Option (List Char)) (messages : List Msg) : List Char :=
  stringifyContent (taskHint prompt messages)

/-- The effect of `injectMemories` (src/index.ts lines 96-132) on
`output.context`.  The hybrid-search outcome is passed in as `searchRes`
(`Except.error` models a throw inside the `try`, which the `catch` turns
into "no injection"). -/
def injectMemories (expQ : ℚ → ℚ) (now : ℚ) (maxMemories : ℕ)
    (isoDate : ℚ → List Char) (activeMem : Option Nat) (name : List Char)
    (searchRes : Except Unit (List MemoryEntry))
    (context : Option (List (List Char))) : Option (List (List Char)) :=
  match activeMem with
  | none => context
  | some _ =>
    match searchRes with
    | Except.error _ => context
    | Except.ok res =>
      let memories := rerank expQ now maxMemories res
      if memories.isEmpty then context
      else some (context.getD [] ++ [renderBlock isoDate name memories])

/-! ### Store Registry (src/index.ts lines 49-76, 201-203) -/

/-- The three module-level variables of the Active Session State
(src/index.ts lines 16-18); store handles and ingest predicates are
abstracted to identifiers handed out by the external collaborator. -/
structure SessionState where
  activeMemory : Option Nat
  activeName : Option (List Char)
  activeShouldCreate : Option Nat
deriving DecidableEq, Repr

/-- What one `named_memory_use` execution did. -/
inductive UseOutcome where
  | alreadyActive
  | switched
  | failed
deriving DecidableEq, Repr

/-- The observable result of one `named_memory_use` execution: the session
state afterwards, the handles the execution closed via the store's `close`
contract, and the kind of message returned. -/
structure UseResult where
  state : SessionState
  closedHandles : List Nat
  outcome : UseOutcome
deriving DecidableEq, Repr

/-- `namedMemoryUse.execute` (src/index.ts lines 54-75).  `openRes` is the
outcome of `await createAgentMemory({dbPath})` and `predRes` the outcome of
`await activeMemory.shouldCreateMemory(…)`; an `Except.error` models a
throw caught by the surrounding `catch`.  The source assigns `activeMemory`
before awaiting the predicate and issues no `close` call, which this
definition reproduces line by line. -/
def namedMemoryUse (st : SessionState) (raw : List Char)
    (openRes : Except Unit Nat) (predRes : Except Unit Nat) : UseResult :=
  let name := sanitizeName raw
  if st.activeName = some name ∧ st.activeMemory.isSome then
    { state := st, closedHandles := [], outcome := UseOutcome.alreadyActive }
  else
    match openRes with
    | Except.error _ => { state := st, closedHandles := [], outcome := UseOutcome.failed }
    | Except.ok h =>
      match predRes with
      | Except.error _ =>
        { state := { st with activeMemory := some h },
          closedHandles := [], outcome := UseOutcome.failed }
      | Except.ok p =>
        { state := { activeMemory := some h, activeName := some name,
                     activeShouldCreate := some p },
          closedHandles := [], outcome := UseOutcome.switched }

/-- `destroy` (src/index.ts lines 201-203): the handles it closes. -/
def destroy (st : SessionState) : List Nat :=
  match st.activeMemory with
  | some h => [h]
  | none => []

/-- The fixed test string of the spec, "Richard\x27s Work!!". -/
def richardsWork : List Char :=
  ['R', 'i', 'c', 'h', 'a', 'r', 'd', squote, 's', ' ', 'W', 'o', 'r', 'k', '!', '!']

/-- The fixed test string of the spec, "O\x27Brien". -/
def obrien : List Char := ['O', squote, 'B', 'r', 'i', 'e', 'n']

/-- Structural invariant of sanitizer outputs: every character is a lowercase
alphanumeric or a hyphen, no two hyphens are adjacent, no hyphen stands at
either end, and the token is nonempty. -/
def canonicalToken (s : List Char) : Prop :=
  (∀ c ∈ s, isLowerAlnum c = true ∨ c = '-') ∧
  s.Chain' (fun a b => ¬(a = '-' ∧ b = '-')) ∧
  s.head? ≠ some '-' ∧
  s.getLast? ≠ some '-' ∧
  s ≠ []

theorem toLower_fixed {c : Char} (h : isLowerAlnum c = true ∨ c = '-') : c.toLower = c := by
  rcases h with h | rfl
  · simp only [isLowerAlnum, Bool.or_eq_true, Bool.and_eq_true, decide_eq_true_eq] at h
    simp only [Char.toLower]
    rw [if_neg]
    rintro ⟨h1, h2⟩
    rcases h with ⟨ha, _⟩ | ⟨_, h9⟩
    · have hn : 97 ≤ c.toNat := by
        have hv := (Char.le_def).mp ha
        have h2' : ('a').val.toNat ≤ c.val.toNat := hv
        simpa [Char.toNat] using h2'
      omega
    · have hn : c.toNat ≤ 57 := by
        have hv := (Char.le_def).mp h9
        have h2' : c.val.toNat ≤ ('9').val.toNat := hv
        simpa [Char.toNat] using h2'
      omega
  · decide

theorem mem_collapseRunsAux {p : Char → Bool} {r : Char} {l : List Char} :
    ∀ {b : Bool} {c : Char}, c ∈ collapseRunsAux p r b l → c = r ∨ (c ∈ l ∧ p c = false) := by
  induction l with
  | nil => intro b c h; simp [collapseRunsAux] at h
  | cons x xs ih =>
    intro b c h
    by_cases hx : p x = true
    · cases b with
      | true =>
        simp only [collapseRunsAux, hx, if_true] at h
        rcases ih h with hc | ⟨h1, h2⟩
        · exact Or.inl hc
        · exact Or.inr ⟨List.mem_cons_of_mem _ h1, h2⟩
      | false =>
        simp only [collapseRunsAux, hx, if_true, if_false] at h
        rcases List.mem_cons.mp h with rfl | h'
        · exact Or.inl rfl
        · rcases ih h' with hc | ⟨h1, h2⟩
          · exact Or.inl hc
          · exact Or.inr ⟨List.mem_cons_of_mem _ h1, h2⟩
    · simp only [collapseRunsAux, hx, if_false] at h
      rcases List.mem_cons.mp h with rfl | h'
      · exact Or.inr ⟨List.mem_cons_self _ _, by simpa using hx⟩
      · rcases ih h' with hc | ⟨h1, h2⟩
        · exact Or.inl hc
        · exact Or.inr ⟨List.mem_cons_of_mem _ h1, h2⟩

theorem head_collapseRunsAux_true {p : Char → Bool} {r : Char} {l : List Char} :
    ∀ {c : Char}, (collapseRunsAux p r true l).head? = some c → p c = false := by
  induction l with
  | nil => intro c h; simp [collapseRunsAux] at h
  | cons x xs ih =>
    intro c h
    by_cases hx : p x = true
    · simp only [collapseRunsAux, hx, if_true] at h
      exact ih h
    · simp only [collapseRunsAux, hx, if_false, List.head?_cons] at h
      cases h
      simpa using hx

theorem chain_collapseRunsAux {p : Char → Bool} {r : Char} {l : List Char} :
    ∀ {b : Bool}, (collapseRunsAux p r b l).Chain' (fun a b' => ¬(p a = true ∧ p b' = true)) := by
  induction l with
  | nil => intro b; simp [collapseRunsAux]
  | cons x xs ih =>
    intro b
    by_cases hx : p x = true
    · cases b with
      | true => simpa only [collapseRunsAux, hx, if_true] using ih
      | false =>
        have hstep : collapseRunsAux p r false (x :: xs) = r :: collapseRunsAux p r true xs := by
          simp [collapseRunsAux, hx]
        rw [hstep, List.chain'_cons']
        refine ⟨?_, ih⟩
        intro y hy
        have hpy : p y = false := head_collapseRunsAux_true (Option.mem_def.mp hy)
        rintro ⟨_, hy'⟩
        rw [hpy] at hy'
        cases hy'
    · have hstep : collapseRunsAux p r b (x :: xs) = x :: collapseRunsAux p r false xs := by
        simp [collapseRunsAux, hx]
      rw [hstep, List.chain'_cons']
      refine ⟨?_, ih⟩
      rintro y hy ⟨hx', _⟩
      exact hx hx'

theorem mem_collapseRuns {p : Char → Bool} {r : Char} {l : List Char} {c : Char}
    (h : c ∈ collapseRuns p r l) : c = r ∨ (c ∈ l ∧ p c = false) :=
  mem_collapseRunsAux h

theorem chain_collapseRuns {p : Char → Bool} {r : Char} {l : List Char} :
    (collapseRuns p r l).Chain' (fun a b' => ¬(p a = true ∧ p b' = true)) :=
  chain_collapseRunsAux

theorem collapseRunsAux_head_false {p : Char → Bool} {r x : Char} (hx : p x = false) (xs : List Char) :
    collapseRunsAux p r true (x :: xs) = collapseRunsAux p r false (x :: xs) := by
  simp [collapseRunsAux, hx]

theorem collapseRuns_id {p : Char → Bool} {r : Char} : ∀ (l : List Char),
    (∀ c ∈ l, p c = true → c = r) →
    l.Chain' (fun a b' => ¬(p a = true ∧ p b' = true)) →
    collapseRuns p r l = l := by
  intro l
  induction l with
  | nil => intro _ _; rfl
  | cons x xs ih =>
    intro hall hch
    by_cases hx : p x = true
    · have hxr : x = r := hall x (List.mem_cons_self _ _) hx
      have hstep : collapseRuns p r (x :: xs) = r :: collapseRunsAux p r true xs := by
        simp [collapseRuns, collapseRunsAux, hx]
      rw [hstep, hxr]
      cases xs with
      | nil => rfl
      | cons y ys =>
        have hy : p y = false := by
          rw [List.chain'_cons] at hch
          by_contra hy'
          exact hch.1 ⟨hx, by simpa using hy'⟩
        rw [collapseRunsAux_head_false hy]
        have htail : collapseRunsAux p r false (y :: ys) = y :: ys :=
          ih (fun c hc hpc => hall c (List.mem_cons_of_mem _ hc) hpc)
            ((List.chain'_cons).mp hch).2
        rw [htail]
    · have hstep : collapseRuns p r (x :: xs) = x :: collapseRunsAux p r false xs := by
        simp [collapseRuns, collapseRunsAux, hx]
      rw [hstep]
      have htail : collapseRunsAux p r false xs = xs :=
        ih (fun c hc hpc => hall c (List.mem_cons_of_mem _ hc) hpc) hch.tail
      rw [htail]

theorem dropWhile_eq_self_of_head {p : Char → Bool} {l : List Char}
    (h : ∀ c, l.head? = some c → p c = false) : l.dropWhile p = l := by
  cases l with
  | nil => rfl
  | cons x xs =>
    rw [List.dropWhile_cons, if_neg]
    simp [h x rfl]

theorem trimBoth_eq_self {p : Char → Bool} {l : List Char}
    (h1 : ∀ c, l.head? = some c → p c = false)
    (h2 : ∀ c, l.getLast? = some c → p c = false) :
    ((l.dropWhile p).reverse.dropWhile p).reverse = l := by
  rw [dropWhile_eq_self_of_head h1]
  rw [dropWhile_eq_self_of_head (fun c hc => h2 c (by rwa [List.head?_reverse] at hc))]
  exact List.reverse_reverse l

theorem head_dropWhile_false {p : Char → Bool} {l : List Char} {c : Char}
    (h : (l.dropWhile p).head? = some c) : p c = false := by
  have h2 := List.head?_dropWhile_not p l
  rw [h] at h2
  exact h2

theorem getLast?_dropWhile_ne_nil {p : Char → Bool} {l : List Char}
    (h : l.dropWhile p ≠ []) : (l.dropWhile p).getLast? = l.getLast? := by
  obtain ⟨t, ht⟩ := List.dropWhile_suffix (l := l) p
  conv_rhs => rw [← ht]
  rw [List.getLast?_append]
  cases hd : (l.dropWhile p).getLast? with
  | some x => rfl
  | none =>
    rw [List.getLast?_eq_none_iff] at hd
    exact absurd hd h

theorem mem_stripHyphens {l : List Char} {c : Char} (h : c ∈ stripHyphens l) : c ∈ l := by
  unfold stripHyphens at h
  rw [List.mem_reverse] at h
  have h1 := (List.dropWhile_sublist _).subset h
  rw [List.mem_reverse] at h1
  exact (List.dropWhile_sublist _).subset h1

theorem chain_stripHyphens {R : Char → Char → Prop} (hsymm : ∀ a b, R a b → R b a)
    {l : List Char} (h : l.Chain' R) : (stripHyphens l).Chain' R := by
  unfold stripHyphens
  have h1 : (l.dropWhile (fun c => c == '-')).Chain' R :=
    h.suffix (List.dropWhile_suffix _)
  have h2 : ((l.dropWhile (fun c => c == '-')).reverse).Chain' R :=
    List.chain'_reverse.mpr (h1.imp (fun a b hr => hsymm a b hr))
  have h3 : ((l.dropWhile (fun c => c == '-')).reverse.dropWhile (fun c => c == '-')).Chain' R :=
    h2.suffix (List.dropWhile_suffix _)
  exact List.chain'_reverse.mpr (h3.imp (fun a b hr => hsymm a b hr))

theorem stripHyphens_head_last {l : List Char} (hne : stripHyphens l ≠ []) :
    (stripHyphens l).head? ≠ some '-' ∧ (stripHyphens l).getLast? ≠ some '-' := by
  constructor
  · intro hh
    unfold stripHyphens at hh hne
    rw [List.head?_reverse] at hh
    have hXne : (l.dropWhile (fun c => c == '-')).reverse.dropWhile (fun c => c == '-') ≠ [] := by
      intro h0
      rw [h0] at hne
      exact hne rfl
    rw [getLast?_dropWhile_ne_nil hXne, List.getLast?_reverse] at hh
    have := head_dropWhile_false hh
    simp at this
  · intro hh
    unfold stripHyphens at hh
    rw [List.getLast?_reverse] at hh
    have := head_dropWhile_false hh
    simp at this

theorem canonicalToken_sanitizeName (l : List Char) : canonicalToken (sanitizeName l) := by
  unfold sanitizeName
  by_cases hempty : (stripHyphens (collapseRuns (fun c => c == '-') '-'
      (collapseRuns (fun c => !isLowerAlnum c) '-' (jsTrim (l.map Char.toLower))))).isEmpty
  · rw [if_pos hempty]
    refine ⟨by decide, ?_, by decide, by decide, by decide⟩
    rw [show ("default".toList = ['d','e','f','a','u','l','t']) from rfl]
    simp [List.chain'_cons]
  · rw [if_neg hempty]
    have hsne : stripHyphens (collapseRuns (fun c => c == '-') '-'
        (collapseRuns (fun c => !isLowerAlnum c) '-' (jsTrim (l.map Char.toLower)))) ≠ [] := by
      simpa [List.isEmpty_eq_true] using hempty
    refine ⟨?_, ?_, (stripHyphens_head_last hsne).1, (stripHyphens_head_last hsne).2, hsne⟩
    · intro c hc
      have hc3 := mem_stripHyphens hc
      rcases mem_collapseRunsAux hc3 with rfl | ⟨hc2, _⟩
      · exact Or.inr rfl
      · rcases mem_collapseRunsAux hc2 with rfl | ⟨_, hp⟩
        · exact Or.inr rfl
        · exact Or.inl (by simpa using hp)
    · have hch3 : (collapseRuns (fun c => c == '-') '-'
          (collapseRuns (fun c => !isLowerAlnum c) '-' (jsTrim (l.map Char.toLower)))).Chain'
          (fun a b => ¬((a == '-') = true ∧ (b == '-') = true)) :=
        chain_collapseRuns
      have hch3' : (collapseRuns (fun c => c == '-') '-'
          (collapseRuns (fun c => !isLowerAlnum c) '-' (jsTrim (l.map Char.toLower)))).Chain'
          (fun a b => ¬(a = '-' ∧ b = '-')) :=
        hch3.imp (fun a b hr hab => hr ⟨by simp [hab.1], by simp [hab.2]⟩)
      exact chain_stripHyphens (fun a b hr hab => hr ⟨hab.2, hab.1⟩) hch3'

theorem map_eq_self_of {f : Char → Char} : ∀ {l : List Char},
    (∀ c ∈ l, f c = c) → l.map f = l := by
  intro l
  induction l with
  | nil => intro _; rfl
  | cons x xs ih =>
    intro h
    rw [List.map_cons, h x (List.mem_cons_self _ _),
      ih (fun c hc => h c (List.mem_cons_of_mem _ hc))]

theorem not_whitespace_of_good {c : Char} (h : isLowerAlnum c = true ∨ c = '-') :
    c.isWhitespace = false := by
  by_cases hw : c.isWhitespace = true
  · exfalso
    simp only [Char.isWhitespace, Bool.or_eq_true, decide_eq_true_eq] at hw
    rcases hw with ((rfl | rfl) | rfl) | rfl <;> revert h <;> decide
  · simpa using hw

theorem chain'_of_mem_imp {R S : Char → Char → Prop} : ∀ {l : List Char},
    (∀ a b, a ∈ l → b ∈ l → R a b → S a b) → l.Chain' R → l.Chain' S := by
  intro l
  induction l with
  | nil => intro _ _; exact List.chain'_nil
  | cons x xs ih =>
    intro himp hch
    rw [List.chain'_cons'] at hch ⊢
    refine ⟨?_, ih (fun a b ha hb => himp a b (List.mem_cons_of_mem _ ha)
      (List.mem_cons_of_mem _ hb)) hch.2⟩
    intro y hy
    exact himp x y (List.mem_cons_self _ _)
      (List.mem_cons_of_mem _ (List.mem_of_mem_head? hy)) (hch.1 y hy)

theorem sanitizeName_fixed {s : List Char} (h : canonicalToken s) : sanitizeName s = s := by
  obtain ⟨hmem, hch, hhead, hlast, hne⟩ := h
  have hlow : s.map Char.toLower = s :=
    map_eq_self_of (fun c hc => toLower_fixed (hmem c hc))
  have htrim : jsTrim s = s :=
    trimBoth_eq_self
      (fun c hc => not_whitespace_of_good (hmem c (List.mem_of_mem_head? (Option.mem_def.mpr hc))))
      (fun c hc => not_whitespace_of_good (hmem c (List.mem_of_mem_getLast? (Option.mem_def.mpr hc))))
  have hc1 : collapseRuns (fun c => !isLowerAlnum c) '-' s = s := by
    apply collapseRuns_id
    · intro c hc hpc
      rcases hmem c hc with ha | ha
      · rw [ha] at hpc
        simp at hpc
      · exact ha
    · refine chain'_of_mem_imp ?_ hch
      rintro a b ha hb hr ⟨hpa, hpb⟩
      have ha' : a = '-' := by
        rcases hmem a ha with h1 | h1
        · rw [h1] at hpa
          simp at hpa
        · exact h1
      have hb' : b = '-' := by
        rcases hmem b hb with h1 | h1
        · rw [h1] at hpb
          simp at hpb
        · exact h1
      exact hr ⟨ha', hb'⟩
  have hc2 : collapseRuns (fun c => c == '-') '-' s = s := by
    apply collapseRuns_id
    · intro c _ hc
      simpa using hc
    · exact hch.imp (fun a b hr hab => hr ⟨by simpa using hab.1, by simpa using hab.2⟩)
  have hstrip : stripHyphens s = s :=
    trimBoth_eq_self
      (fun c hc => by
        have hcne : c ≠ '-' := fun he => hhead (he ▸ hc)
        simpa using hcne)
      (fun c hc => by
        have hcne : c ≠ '-' := fun he => hlast (he ▸ hc)
        simpa using hcne)
  simp only [sanitizeName, hlow, htrim, hc1, hc2, hstrip]
  rw [if_neg (by simpa [List.isEmpty_eq_true] using hne)]

/-- C7: the name sanitizer is total and pure, its output always matches
[a-z0-9-]+ with no leading, trailing or duplicate hyphens (falling back to
"default" when the result would be empty), it is idempotent, and the two
concrete examples of the spec hold. -/
theorem sanitizeName_spec (l : List Char) :
    (∀ c ∈ sanitizeName l, isLowerAlnum c = true ∨ c = '-') ∧
    (sanitizeName l).Chain' (fun a b => ¬(a = '-' ∧ b = '-')) ∧
    (sanitizeName l).head? ≠ some '-' ∧
    (sanitizeName l).getLast? ≠ some '-' ∧
    sanitizeName l ≠ [] ∧
    sanitizeName (sanitizeName l) = sanitizeName l ∧
    sanitizeName richardsWork = "richard-s-work".toList ∧
    sanitizeName ("   ".toList) = "default".toList := by
  obtain ⟨h1, h2, h3, h4, h5⟩ := canonicalToken_sanitizeName l
  exact ⟨h1, h2, h3, h4, h5, sanitizeName_fixed (canonicalToken_sanitizeName l),
    by decide, by decide⟩

/-- Witness for C7 at concrete inputs. -/
theorem sanitizeName_spec_check :
    (isLowerAlnum 'a' = true ∨ 'a' = '-') ∧
    sanitizeName (sanitizeName ("abc".toList)) = sanitizeName ("abc".toList) :=
  ⟨(sanitizeName_spec ("abc".toList)).1 'a' (by decide),
    (sanitizeName_spec ("abc".toList)).2.2.2.2.2.1⟩

/-- C10: for the search tool, a provided limit of 0 falls back to the
default limit 6, exactly as if the limit were absent. -/
theorem search_limit_zero_default (q : List Char) :
    namedMemorySearchCall q (some 0) = namedMemorySearchCall q none ∧
    (namedMemorySearchCall q (some 0)).limit = 6 := by
  constructor <;> simp [namedMemorySearchCall]

/-- C6 counterexample: the plugin exposes no judge_worth_saving tool. -/
theorem judge_tool_absent : "judge_worth_saving".toList ∉ toolNames := by decide

/-- C6 amended: the tool surface is exactly the four tools
named_memory_use, named_memory_search, named_memory_add and
named_memory_stats; no judgment-evaluator tool exists. -/
theorem tool_surface_exact :
    "judge_worth_saving".toList ∉ toolNames ∧
    toolNames.length = 4 ∧
    "named_memory_use".toList ∈ toolNames ∧
    "named_memory_search".toList ∈ toolNames ∧
    "named_memory_add".toList ∈ toolNames ∧
    "named_memory_stats".toList ∈ toolNames := by
  refine ⟨by decide, rfl, ?_, ?_, ?_, ?_⟩ <;> decide

/-- C3 counterexample: the search tool passes the seven-character query
with an apostrophe through to the hybrid search unchanged, not in the
quote-doubled, double-quote-wrapped form the spec describes. -/
theorem search_query_not_escaped_obrien :
    (namedMemorySearchCall obrien none).query = obrien ∧
    (namedMemorySearchCall obrien none).query ≠ specEscapeQuery obrien := by
  constructor
  · rfl
  · decide

/-- C3 amended: every free-text query (the search tool query and the inject
pipeline task hint) is passed to the external hybrid search verbatim; no
escaping of any kind is applied. -/
theorem queries_passed_verbatim (q : List Char) (limit : Option ℚ) (c : Char)
    (p : List Char) (messages : List Msg) :
    (namedMemorySearchCall q limit).query = q ∧
    injectQuery (some (c :: p)) messages = c :: p := by
  refine ⟨rfl, ?_⟩
  simp [injectQuery, taskHint, stringifyContent]

/-- C1: when the store-open call succeeds but the ingest-predicate
derivation throws, the session state is left partially updated: the handle
now belongs to the new store while the identity token and predicate still
belong to the previous one.  Only an open-call failure leaves the state
fully unchanged. -/
theorem activate_predicate_failure_splits_state :
    (namedMemoryUse ⟨some 1, some "alpha".toList, some 10⟩ "beta".toList
      (Except.ok 2) (Except.error ())).state =
        ⟨some 2, some "alpha".toList, some 10⟩ ∧
    (namedMemoryUse ⟨some 1, some "alpha".toList, some 10⟩ "beta".toList
      (Except.ok 2) (Except.error ())).state.activeMemory ≠ some 1 ∧
    (namedMemoryUse ⟨some 1, some "alpha".toList, some 10⟩ "beta".toList
      (Except.error ()) (Except.error ())).state =
        ⟨some 1, some "alpha".toList, some 10⟩ := by
  refine ⟨?_, ?_, ?_⟩ <;> decide

/-- C2: switching from one active identity to a different one issues no
close call on the previously open handle; the old handle is dropped
unreleased while the new one is opened. -/
theorem switch_never_closes_previous_handle :
    (namedMemoryUse ⟨none, none, none⟩ "alpha".toList
      (Except.ok 1) (Except.ok 10)).state = ⟨some 1, some "alpha".toList, some 10⟩ ∧
    (namedMemoryUse ⟨some 1, some "alpha".toList, some 10⟩ "beta".toList
      (Except.ok 2) (Except.ok 20)).state.activeMemory = some 2 ∧
    (namedMemoryUse ⟨some 1, some "alpha".toList, some 10⟩ "beta".toList
      (Except.ok 2) (Except.ok 20)).closedHandles = [] ∧
    1 ∉ (namedMemoryUse ⟨some 1, some "alpha".toList, some 10⟩ "beta".toList
      (Except.ok 2) (Except.ok 20)).closedHandles := by
  refine ⟨?_, ?_, ?_, ?_⟩ <;> decide

/-- C5: for a user message passing the ingest guard, non-string content is
serialized, content longer than 600 characters is truncated to its first
550 characters plus an ellipsis (553 total), shorter content is unchanged,
and the add operation is called if and only if the predicate accepts the
normalized content. -/
theorem ingest_gate_spec (m : Nat) (p : List Char → Bool) (msg : Msg) (c : JsContent)
    (hc : msg.content = some c) (ht : contentTruthy c = true)
    (hr : msg.role = "user".toList) :
    (ingestUserMessage (some m) (some p) msg =
      if p (normalizeContent (stringifyContent c)) then
        some (normalizeContent (stringifyContent c)) else none) ∧
    ((stringifyContent c).length > 600 →
      normalizeContent (stringifyContent c) =
        (stringifyContent c).take 550 ++ "...".toList ∧
      (normalizeContent (stringifyContent c)).length = 553) ∧
    ((stringifyContent c).length ≤ 600 →
      normalizeContent (stringifyContent c) = stringifyContent c) := by
  refine ⟨?_, ?_, ?_⟩
  · simp [ingestUserMessage, hc, ht, hr]
  · intro hlen
    rw [normalizeContent, if_pos hlen]
    refine ⟨rfl, ?_⟩
    simp [List.length_append]
    omega
  · intro hlen
    rw [normalizeContent, if_neg (by omega)]

/-- Witness for C5 at a concrete accepted message. -/
theorem ingest_gate_spec_check :
    ingestUserMessage (some 0) (some (fun _ => true))
      ⟨"user".toList, some (JsContent.jstr ("hello".toList))⟩ = some "hello".toList := by
  have h := (ingest_gate_spec 0 (fun _ => true)
    ⟨"user".toList, some (JsContent.jstr ("hello".toList))⟩
    (JsContent.jstr ("hello".toList)) rfl rfl rfl).1
  simpa [normalizeContent, stringifyContent] using h

/-- C8: the inject pipeline never keeps more than maxMemories re-ranked
entries, leaves output.context untouched when the re-ranked list is empty,
and otherwise appends exactly one rendered block to the existing context
(creating the list when absent), preserving all prior entries. -/
theorem inject_frame_spec (expQ : ℚ → ℚ) (now : ℚ) (maxMemories : ℕ)
    (isoDate : ℚ → List Char) (h : Nat) (name : List Char)
    (res : List MemoryEntry) (context : Option (List (List Char))) :
    (rerank expQ now maxMemories res).length ≤ maxMemories ∧
    (rerank expQ now maxMemories res = [] →
      injectMemories expQ now maxMemories isoDate (some h) name
        (Except.ok res) context = context) ∧
    (rerank expQ now maxMemories res ≠ [] →
      injectMemories expQ now maxMemories isoDate (some h) name
        (Except.ok res) context =
        some (context.getD [] ++
          [renderBlock isoDate name (rerank expQ now maxMemories res)])) := by
  refine ⟨?_, ?_, ?_⟩
  · simp [rerank]
  · intro hnil
    simp [injectMemories, hnil]
  · intro hnil
    simp [injectMemories, List.isEmpty_eq_true, hnil]

/-- Witness for C8: with no candidates the context is left unchanged. -/
theorem inject_frame_spec_check :
    injectMemories (fun _ => 1) 0 7 (fun _ => []) (some 0) []
      (Except.ok []) (some [['x']]) = some [['x']] := by
  have h := (inject_frame_spec (fun _ => 1) 0 7 (fun _ => []) 0 [] [] (some [['x']])).2.1
  exact h (by simp [rerank])

set_option maxRecDepth 4000 in
/-- C9 counterexample: a 601-character prompt is used as the search query
in full; the inject pipeline applies no truncation, so the query differs
from the ingest-style normalization the spec describes. -/
theorem inject_hint_not_truncated :
    injectQuery (some (List.replicate 601 'a')) [] = List.replicate 601 'a' ∧
    (List.replicate 601 'a').length = 601 ∧
    (normalizeContent (List.replicate 601 'a')).length = 553 ∧
    injectQuery (some (List.replicate 601 'a')) [] ≠
      normalizeContent (injectQuery (some (List.replicate 601 'a')) []) := by
  have hq : injectQuery (some (List.replicate 601 'a')) [] = List.replicate 601 'a' := by
    simp [injectQuery, taskHint, stringifyContent, List.isEmpty_iff_length_eq_zero]
  have hn : (normalizeContent (List.replicate 601 'a')).length = 553 := by
    rw [normalizeContent, if_pos (by simp)]
    simp [List.length_append]
  refine ⟨hq, by simp, hn, ?_⟩
  intro heq
  rw [hq] at heq
  have := congrArg List.length heq
  rw [hn] at this
  simp at this

/-- C9 amended: the task hint is the prompt when truthy, else the last
message content when truthy, else the fixed string; the hint is serialized
but used as the query without any truncation. -/
theorem inject_hint_selection (c0 : Char) (p : List Char) (messages : List Msg)
    (c : JsContent) :
    injectQuery (some (c0 :: p)) messages = c0 :: p ∧
    (lastContent messages = some c → contentTruthy c = true →
      injectQuery none messages = stringifyContent c ∧
      injectQuery (some []) messages = stringifyContent c) ∧
    (lastContent messages = none →
      injectQuery none messages = "current coding task".toList ∧
      injectQuery (some []) messages = "current coding task".toList) ∧
    (lastContent messages = some c → contentTruthy c = false →
      injectQuery none messages = "current coding task".toList) := by
  refine ⟨?_, ?_, ?_, ?_⟩
  · simp [injectQuery, taskHint, stringifyContent]
  · intro hl ht
    constructor <;> simp [injectQuery, taskHint, hl, ht]
  · intro hl
    constructor <;> simp [injectQuery, taskHint, hl, stringifyContent]
  · intro hl ht
    simp [injectQuery, taskHint, hl, ht, stringifyContent]

/-- Witness for C9 amended at a concrete message list. -/
theorem inject_hint_selection_check :
    injectQuery none [⟨"user".toList, some (JsContent.jstr ("fix bug".toList))⟩] =
      "fix bug".toList := by
  have h := (inject_hint_selection 'x' []
    [⟨"user".toList, some (JsContent.jstr ("fix bug".toList))⟩]
    (JsContent.jstr ("fix bug".toList))).2.1 (by simp [lastContent]) (by decide)
  exact h.1

/-- C4: the inject pipeline requests maxMemories + 10 candidates, computes
finalScore = rawScore * max(0.55, exp(-((now - createdAt)/3600000) / 72)) for
each candidate, sorts descending by finalScore keeping ties in retrieval
order (stability witnessed by pair-sublist preservation), and truncates to
the first maxMemories entries. -/
theorem rerank_decay_sort_spec (expQ : ℚ → ℚ) (now : ℚ) (maxM : ℕ)
    (ms : List MemoryEntry) (a b : Ranked)
    (hab : List.Sublist [a, b] (ms.map (decayScore expQ now)))
    (hle : b.finalScore ≤ a.finalScore) :
    injectSearchLimit maxM = maxM + 10 ∧
    (∀ m : MemoryEntry, decayScore expQ now m =
      { entry := m,
        finalScore := m.score.getD 0 *
          max (11/20 : ℚ) (expQ (-((now - m.createdAt) / 3600000) / 72)) }) ∧
    ((ms.map (decayScore expQ now)).mergeSort byFinalScoreDesc).Pairwise
      (fun x y => y.finalScore ≤ x.finalScore) ∧
    List.Perm ((ms.map (decayScore expQ now)).mergeSort byFinalScoreDesc)
      (ms.map (decayScore expQ now)) ∧
    List.Sublist [a, b] ((ms.map (decayScore expQ now)).mergeSort byFinalScoreDesc) ∧
    rerank expQ now maxM ms =
      ((ms.map (decayScore expQ now)).mergeSort byFinalScoreDesc).take maxM := by
  have htrans : ∀ x y z : Ranked, byFinalScoreDesc x y → byFinalScoreDesc y z →
      byFinalScoreDesc x z := by
    intro x y z h1 h2
    simp only [byFinalScoreDesc, decide_eq_true_eq] at h1 h2 ⊢
    exact le_trans h2 h1
  have htotal : ∀ x y : Ranked, byFinalScoreDesc x y || byFinalScoreDesc y x := by
    intro x y
    simpa [byFinalScoreDesc] using le_total y.finalScore x.finalScore
  refine ⟨rfl, fun m => rfl, ?_, List.mergeSort_perm _ _, ?_, rfl⟩
  · have hs := List.sorted_mergeSort htrans htotal (ms.map (decayScore expQ now))
    exact hs.imp (fun h => by simpa [byFinalScoreDesc] using h)
  · exact List.pair_sublist_mergeSort htrans htotal
      (by simpa [byFinalScoreDesc] using hle) hab

/-- Witness for C4: two candidates tying at the same finalScore stay in
retrieval order in the sorted output. -/
theorem rerank_decay_sort_spec_check :
    List.Sublist
      [decayScore (fun _ => 1) 0 ⟨['x'], 0, some 1⟩,
       decayScore (fun _ => 1) 0 ⟨['y'], 0, some 1⟩]
      ((([⟨['x'], 0, some 1⟩, ⟨['y'], 0, some 1⟩] : List MemoryEntry).map
        (decayScore (fun _ => 1) 0)).mergeSort byFinalScoreDesc) :=
  (rerank_decay_sort_spec (fun _ => 1) 0 7
    [⟨['x'], 0, some 1⟩, ⟨['y'], 0, some 1⟩] _ _
    (List.Sublist.refl _) (by norm_num [decayScore])).2.2.2.2.1
